import Mathlib

/-!
A shallow embedding of the persistent message queue in `messagequeue.py`.

The queue stores its messages in one shared SQL table `message_queue`; we model
that table as a list of `Record` together with the auto-increment counter and
the store's clock (`CURRENT_TIMESTAMP`), as a `QState`.  Each method of the
Python class `MessageQueue` runs inside its own store transaction; we model each
such transaction as one atomic state-to-state function, so a concurrent history
of transactions is a sequential composition of these functions (the store's
row locking and transaction isolation, which the module requires of its backing
store, is what justifies this serialization).

Timestamps are naturals (seconds of the store clock).  `CURRENT_TIMESTAMP` is
`QState.now`; `ADDTIME(CURRENT_TIMESTAMP, SEC_TO_TIME(t))` is `now + t`.
-/

/-- Default read-lock timeout: `DEFAULT_LOCK_TIMEOUT = 24 * 60 * 60` (one day). -/
def DEFAULT_LOCK_TIMEOUT : Nat := 24 * 60 * 60

/-- One row of the `message_queue` table:
`(id, queue, message, create_time, read_time, lock_time, timeout, locked)`. -/
structure Record where
  id : Nat
  queue : String
  message : String
  createTime : Nat
  readTime : Nat
  lockTime : Nat
  timeout : Nat
  locked : Bool
deriving Repr, DecidableEq

/-- The store's state: the shared `message_queue` table, the auto-increment
counter used for new ids, and the store clock (`CURRENT_TIMESTAMP`). -/
structure QState where
  table : List Record
  nextId : Nat
  now : Nat
deriving Repr, DecidableEq

/-- The SQL eligibility condition `(NOT locked OR lock_time < CURRENT_TIMESTAMP)`
used by `_readUnhandled` to find an available message. -/
def eligible (now : Nat) (r : Record) : Bool :=
  !r.locked || decide (r.lockTime < now)

/-- A queue handle: `MessageQueue.__init__` binds the queue name and the default
read-lock timeout. -/
structure MessageQueue where
  queue : String
  timeout : Nat
deriving Repr, DecidableEq

/-- One comparison step of `ORDER BY id ASC LIMIT 1`: keep whichever candidate
record has the smaller id (ids are primary keys, hence unique in a real table;
ties keep the earlier row). -/
def minStep (acc : Option Record) (r : Record) : Option Record :=
  match acc with
  | none => some r
  | some b => if r.id < b.id then some r else some b

/-- `ORDER BY id ASC LIMIT 1` over a set of candidate rows. -/
def minById (l : List Record) : Option Record :=
  l.foldl minStep none

/-- The SELECT of `_readUnhandled`:
`SELECT id, message FROM message_queue WHERE queue = %s AND (NOT locked OR
lock_time < CURRENT_TIMESTAMP) ORDER BY id ASC LIMIT 1 FOR UPDATE`. -/
def MessageQueue.selectNext (mq : MessageQueue) (s : QState) : Option Record :=
  minById (s.table.filter (fun r => r.queue == mq.queue && eligible s.now r))

/-- The row inserted by `send`: `INSERT INTO message_queue (queue, message,
timeout) VALUES (%s, %s, %s)`; the other columns take their defaults.
`timeout = none` models Python's `timeout=None`, replaced by `self.timeout`. -/
def MessageQueue.newRecord (mq : MessageQueue) (s : QState) (message : String)
    (timeout : Option Nat) : Record :=
  { id := s.nextId, queue := mq.queue, message := message, createTime := s.now,
    readTime := 0, lockTime := 0, timeout := timeout.getD mq.timeout, locked := false }

/-- `MessageQueue.send`: inserts a new unlocked row in its own transaction and
returns the generated id. -/
def MessageQueue.send (mq : MessageQueue) (s : QState) (message : String)
    (timeout : Option Nat) : Nat × QState :=
  (s.nextId,
   { s with table := s.table ++ [mq.newRecord s message timeout],
            nextId := s.nextId + 1 })

/-- The UPDATE of `_readUnhandled`, applied to each row: `UPDATE message_queue
SET locked = TRUE, read_time = CURRENT_TIMESTAMP, lock_time =
ADDTIME(CURRENT_TIMESTAMP, SEC_TO_TIME(timeout)) WHERE id = %s`. -/
def lockRecord (now i : Nat) (x : Record) : Record :=
  if x.id == i then
    { x with locked := true, readTime := now, lockTime := now + x.timeout }
  else x

/-- `MessageQueue._readUnhandled`: in one transaction, select the lowest-id
eligible row of this handle's queue with a row lock, mark it locked with a fresh
lock expiry, and return `(id, message)`; `none` models raising
`EmptyQueueError`, which leaves the table unchanged. -/
def MessageQueue.readUnhandled (mq : MessageQueue) (s : QState) :
    Option (Nat × String) × QState :=
  match mq.selectNext s with
  | some r =>
      (some (r.id, r.message),
       { s with table := s.table.map (lockRecord s.now r.id) })
  | none => (none, s)

/-- `MessageQueue.delete` (ack): `DELETE FROM message_queue WHERE id = %s`.
Note there is no queue-name filter: the row is matched by id alone. -/
def MessageQueue.delete (mq : MessageQueue) (s : QState) (i : Nat) : QState :=
  { s with table := s.table.filter (fun r => !(r.id == i)) }

/-- `MessageQueue.changeTimeout`: `UPDATE message_queue SET lock_time =
ADDTIME(CURRENT_TIMESTAMP, SEC_TO_TIME(%s)) WHERE id = %s`.  Matched by id
alone; only `lock_time` changes (`locked` stays as it was). -/
def MessageQueue.changeTimeout (mq : MessageQueue) (s : QState) (i t : Nat) : QState :=
  { s with table :=
      s.table.map (fun r => if r.id == i then { r with lockTime := s.now + t } else r) }

/-- How a scoped read terminates: the block ran to completion on the yielded
value, or `EmptyQueueError` propagated, or the block's own error was re-raised. -/
inductive ReadOutcome where
  | ok (m : String)
  | emptyQueue
  | blockError (e : String)
deriving Repr, DecidableEq

/-- `MessageQueue._handled`: yield the message to the caller's block; if the
block raises, set the read-lock timeout to 0 and re-raise; else delete. -/
def MessageQueue.handled (mq : MessageQueue) (s : QState) (i : Nat) (m : String)
    (block : String → Except String Unit) : ReadOutcome × QState :=
  match block m with
  | Except.ok _ => (ReadOutcome.ok m, mq.delete s i)
  | Except.error e => (ReadOutcome.blockError e, mq.changeTimeout s i 0)

/-- `MessageQueue.read`: try `_readUnhandled`; on `EmptyQueueError`, yield the
default if one was supplied (the block then runs on the default, with no ack or
nack afterwards) or re-raise; otherwise run the block under `_handled`. -/
def MessageQueue.read (mq : MessageQueue) (s : QState) (dflt : Option String)
    (block : String → Except String Unit) : ReadOutcome × QState :=
  match mq.readUnhandled s with
  | (some (i, m), s1) => mq.handled s1 i m block
  | (none, s1) =>
      match dflt with
      | some d =>
          match block d with
          | Except.ok _ => (ReadOutcome.ok d, s1)
          | Except.error e => (ReadOutcome.blockError e, s1)
      | none => (ReadOutcome.emptyQueue, s1)

/-- The loop body of `MessageQueue.readAll` / `_readAllUnhandled`, with explicit
fuel standing in for the unbounded `while 1` loop (the fuel is provably ample:
see `readAllGo_fuel_ample`).  Each iteration reads one message, runs the
caller's block on it under `_handled`, and continues; `EmptyQueueError` from
`_readUnhandled` breaks the loop instead of propagating; a block error stops
the iteration and re-raises.  Returns the yielded messages, the escaping error
if any, and the final state. -/
def MessageQueue.readAllGo (mq : MessageQueue) (fuel : Nat) (s : QState)
    (block : String → Except String Unit) : List String × Option String × QState :=
  match fuel with
  | 0 => ([], none, s)
  | Nat.succ f =>
      match mq.readUnhandled s with
      | (some (i, m), s1) =>
          match block m with
          | Except.ok _ =>
              let rest := mq.readAllGo f (mq.delete s1 i) block
              (m :: rest.1, rest.2.1, rest.2.2)
          | Except.error e => ([m], some e, mq.changeTimeout s1 i 0)
      | (none, s1) => ([], none, s1)

/-- `MessageQueue.readAll` (the draining generator), consumed by a caller whose
per-iteration block is `block`. -/
def MessageQueue.readAll (mq : MessageQueue) (s : QState)
    (block : String → Except String Unit) : List String × Option String × QState :=
  mq.readAllGo s.table.length s block

/-- Repeated `_readUnhandled` calls (lease without ack) until `EmptyQueueError`,
with fuel standing in for the unbounded repetition; the fuel is provably ample.
Returns the list of `(id, message)` results and the final state. -/
def MessageQueue.leaseAllGo (mq : MessageQueue) (fuel : Nat) (s : QState) :
    List (Nat × String) × QState :=
  match fuel with
  | 0 => ([], s)
  | Nat.succ f =>
      match mq.readUnhandled s with
      | (some im, s1) =>
          let rest := mq.leaseAllGo f s1
          (im :: rest.1, rest.2)
      | (none, s1) => ([], s1)

/-- Lease repeatedly until `EmptyQueueError`. -/
def MessageQueue.leaseAll (mq : MessageQueue) (s : QState) :
    List (Nat × String) × QState :=
  mq.leaseAllGo s.table.length s

/-- A finite sequence of `send` calls on one handle. -/
def MessageQueue.sendAll (mq : MessageQueue) (s : QState) (msgs : List String)
    (timeout : Option Nat) : QState :=
  msgs.foldl (fun st m => (mq.send st m timeout).2) s

/-- The rows that a sequence of `send` calls appends to the table, starting at
auto-increment value `nid` at store time `now`. -/
def MessageQueue.sentRecords (mq : MessageQueue) (timeout : Option Nat)
    (now : Nat) : Nat → List String → List Record
  | _, [] => []
  | nid, m :: ms =>
      { id := nid, queue := mq.queue, message := m, createTime := now,
        readTime := 0, lockTime := 0, timeout := timeout.getD mq.timeout,
        locked := false } :: mq.sentRecords timeout now (nid + 1) ms

/-- A processing block that always completes normally. -/
def okBlock : String → Except String Unit := fun _ => Except.ok ()

/-! Concrete sample data used to exercise the model on closed inputs. -/

/-- A handle on queue `"q"` with the default timeout. -/
def qHandle : MessageQueue := { queue := "q", timeout := DEFAULT_LOCK_TIMEOUT }

/-- An empty store whose clock reads 1000. -/
def sEmpty : QState := { table := [], nextId := 1, now := 1000 }

/-- One pending (unlocked) message `"a"` with id 1. -/
def rA : Record :=
  { id := 1, queue := "q", message := "a", createTime := 1000, readTime := 0,
    lockTime := 0, timeout := DEFAULT_LOCK_TIMEOUT, locked := false }

/-- A store holding just the pending record `rA`. -/
def sOne : QState := { table := [rA], nextId := 2, now := 1000 }

/-- `rA` after being leased at time 1000 with the default timeout. -/
def rALeased : Record :=
  { id := 1, queue := "q", message := "a", createTime := 1000, readTime := 1000,
    lockTime := 1000 + DEFAULT_LOCK_TIMEOUT, timeout := DEFAULT_LOCK_TIMEOUT,
    locked := true }

/-- The store after leasing `rA` from `sOne`. -/
def sOneLeased : QState := { table := [rALeased], nextId := 2, now := 1000 }

/-- Two pending messages `"a"`, `"b"` with ids 1 and 2. -/
def sTwo : QState :=
  { table :=
      [rA,
       { id := 2, queue := "q", message := "b", createTime := 1000, readTime := 0,
         lockTime := 0, timeout := DEFAULT_LOCK_TIMEOUT, locked := false }],
    nextId := 3, now := 1000 }

/-- The store after `send("q","a")` then `send("q","b")` from the empty store. -/
def sAB : QState := (qHandle.send (qHandle.send sEmpty "a" none).2 "b" none).2

/-- `sAB` after the first lease (of `"a"`). -/
def sAB1 : QState := (qHandle.readUnhandled sAB).2

/-- `sAB1` after acking id 1 (`"a"`). -/
def sAB2 : QState := qHandle.delete sAB1 1

/-- `sAB2` after the second lease (of `"b"`). -/
def sAB3 : QState := (qHandle.readUnhandled sAB2).2

/-! ### Helper lemmas about the selection fold (`ORDER BY id ASC LIMIT 1`) -/

theorem foldl_minStep_some (l : List Record) :
    ∀ b : Record, ∃ r, l.foldl minStep (some b) = some r ∧ (r = b ∨ r ∈ l) ∧
      r.id ≤ b.id ∧ ∀ x ∈ l, r.id ≤ x.id := by
  induction l with
  | nil => exact fun b => ⟨b, rfl, Or.inl rfl, Nat.le_refl _, by simp⟩
  | cons x xs ih =>
    intro b
    by_cases h : x.id < b.id
    · obtain ⟨r, hr, hmem, hle, hall⟩ := ih x
      refine ⟨r, ?_, ?_, Nat.le_trans hle (Nat.le_of_lt h), ?_⟩
      · simpa [List.foldl_cons, minStep, h] using hr
      · rcases hmem with h1 | h1
        · exact Or.inr (by simp [h1])
        · exact Or.inr (List.mem_cons_of_mem _ h1)
      · intro y hy
        rcases List.mem_cons.mp hy with h1 | h1
        · subst h1; exact hle
        · exact hall y h1
    · obtain ⟨r, hr, hmem, hle, hall⟩ := ih b
      refine ⟨r, ?_, ?_, hle, ?_⟩
      · simpa [List.foldl_cons, minStep, h] using hr
      · rcases hmem with h1 | h1
        · exact Or.inl h1
        · exact Or.inr (List.mem_cons_of_mem _ h1)
      · intro y hy
        rcases List.mem_cons.mp hy with h1 | h1
        · subst h1; exact Nat.le_trans hle (Nat.le_of_not_lt h)
        · exact hall y h1

theorem minById_some {l : List Record} {r : Record} (h : minById l = some r) :
    r ∈ l ∧ ∀ x ∈ l, r.id ≤ x.id := by
  cases l with
  | nil => simp [minById] at h
  | cons x xs =>
    obtain ⟨r2, hr2, hmem, hle, hall⟩ := foldl_minStep_some xs x
    have hEq : minById (x :: xs) = some r2 := hr2
    rw [h] at hEq
    obtain rfl : r2 = r := by injection hEq with h3; exact h3.symm
    constructor
    · rcases hmem with h1 | h1
      · simp [h1]
      · exact List.mem_cons_of_mem _ h1
    · intro y hy
      rcases List.mem_cons.mp hy with h1 | h1
      · subst h1; exact hle
      · exact hall y h1

theorem minById_eq_none {l : List Record} : minById l = none ↔ l = [] := by
  cases l with
  | nil => simp [minById]
  | cons x xs =>
    obtain ⟨r2, hr2, _, _, _⟩ := foldl_minStep_some xs x
    have hEq : minById (x :: xs) = some r2 := hr2
    simp [hEq]

theorem foldl_minStep_const (b : Record) :
    ∀ l : List Record, (∀ x ∈ l, ¬ x.id < b.id) → l.foldl minStep (some b) = some b := by
  intro l
  induction l with
  | nil => intro _; rfl
  | cons x xs ih =>
    intro h
    have hx : ¬ x.id < b.id := h x (List.mem_cons_self x xs)
    have hstep : minStep (some b) x = some b := by simp [minStep, hx]
    rw [List.foldl_cons, hstep]
    exact ih fun y hy => h y (List.mem_cons_of_mem _ hy)

theorem minById_head {h0 : Record} {tl : List Record}
    (h : ∀ x ∈ tl, ¬ x.id < h0.id) : minById (h0 :: tl) = some h0 :=
  foldl_minStep_const h0 tl h

/-! ### Inversion lemmas for `selectNext` and `_readUnhandled` -/

theorem selectNext_some {mq : MessageQueue} {s : QState} {r : Record}
    (h : mq.selectNext s = some r) :
    r ∈ s.table ∧ r.queue = mq.queue ∧ eligible s.now r = true ∧
      ∀ x ∈ s.table, x.queue = mq.queue → eligible s.now x = true → r.id ≤ x.id := by
  have h2 : minById (s.table.filter (fun x => x.queue == mq.queue && eligible s.now x))
      = some r := h
  obtain ⟨hmem, hmin⟩ := minById_some h2
  rw [List.mem_filter, Bool.and_eq_true, beq_iff_eq] at hmem
  refine ⟨hmem.1, hmem.2.1, hmem.2.2, ?_⟩
  intro x hx hq he
  exact hmin x (List.mem_filter.mpr ⟨hx, by rw [Bool.and_eq_true, beq_iff_eq]; exact ⟨hq, he⟩⟩)

theorem selectNext_eq_none {mq : MessageQueue} {s : QState} :
    mq.selectNext s = none ↔
      ∀ x ∈ s.table, x.queue = mq.queue → eligible s.now x = false := by
  have h1 : mq.selectNext s
      = minById (s.table.filter (fun x => x.queue == mq.queue && eligible s.now x)) := rfl
  rw [h1, minById_eq_none, List.filter_eq_nil_iff]
  constructor
  · intro h x hx hq
    have h2 := h x hx
    rw [Bool.and_eq_true, beq_iff_eq] at h2
    cases he : eligible s.now x with
    | false => rfl
    | true => exact absurd ⟨hq, he⟩ h2
  · intro h x hx hc
    rw [Bool.and_eq_true, beq_iff_eq] at hc
    rw [h x hx hc.1] at hc
    exact Bool.false_ne_true hc.2

theorem readUnhandled_some {mq : MessageQueue} {s s1 : QState} {i : Nat} {m : String}
    (h : mq.readUnhandled s = (some (i, m), s1)) :
    ∃ r, mq.selectNext s = some r ∧ i = r.id ∧ m = r.message ∧
      s1 = { s with table := s.table.map (lockRecord s.now r.id) } := by
  cases hsel : mq.selectNext s with
  | none => simp [MessageQueue.readUnhandled, hsel] at h
  | some r =>
    simp only [MessageQueue.readUnhandled, hsel, Prod.mk.injEq, Option.some.injEq] at h
    exact ⟨r, rfl, h.1.1.symm, h.1.2.symm, h.2.symm⟩

theorem readUnhandled_of_selectNone {mq : MessageQueue} {s : QState}
    (h : mq.selectNext s = none) : mq.readUnhandled s = (none, s) := by
  simp [MessageQueue.readUnhandled, h]

theorem readUnhandled_fst_none {mq : MessageQueue} {s : QState} :
    (mq.readUnhandled s).fst = none ↔ mq.selectNext s = none := by
  cases hsel : mq.selectNext s with
  | none => simp [MessageQueue.readUnhandled, hsel]
  | some r => simp [MessageQueue.readUnhandled, hsel]

theorem readUnhandled_none_pair {mq : MessageQueue} {s s1 : QState}
    (h : mq.readUnhandled s = (none, s1)) : s1 = s := by
  cases hsel : mq.selectNext s with
  | none =>
    rw [readUnhandled_of_selectNone hsel] at h
    injection h with h1 h2
    exact h2.symm
  | some r => simp [MessageQueue.readUnhandled, hsel] at h

theorem readUnhandled_none_inv {mq : MessageQueue} {s s1 : QState}
    (h : mq.readUnhandled s = (none, s1)) : s1 = s ∧ mq.selectNext s = none := by
  refine ⟨readUnhandled_none_pair h, readUnhandled_fst_none.mp ?_⟩
  rw [h]

/-! ### Lemmas about the locking update of `_readUnhandled` -/

theorem lockRecord_id (now i : Nat) (x : Record) : (lockRecord now i x).id = x.id := by
  unfold lockRecord; split <;> rfl

theorem lockRecord_queue (now i : Nat) (x : Record) :
    (lockRecord now i x).queue = x.queue := by
  unfold lockRecord; split <;> rfl

theorem lockRecord_of_ne (now : Nat) {i : Nat} {x : Record} (h : x.id ≠ i) :
    lockRecord now i x = x := by
  unfold lockRecord
  rw [if_neg (by simp [h])]

theorem lockRecord_self (now : Nat) {i : Nat} {x : Record} (h : x.id = i) :
    lockRecord now i x
      = { x with locked := true, readTime := now, lockTime := now + x.timeout } := by
  unfold lockRecord
  rw [if_pos (by simp [h])]

theorem eligible_lockRecord_self (now : Nat) {i : Nat} {x : Record} (h : x.id = i) :
    eligible now (lockRecord now i x) = false := by
  rw [lockRecord_self now h]
  simp only [eligible, Bool.not_true, Bool.false_or, decide_eq_false_iff_not, Nat.not_lt]
  exact Nat.le_add_right now x.timeout

/-! ### Generic list facts -/

theorem map_eq_self_of_forall {α : Type} (f : α → α) :
    ∀ l : List α, (∀ x ∈ l, f x = x) → l.map f = l := by
  intro l
  induction l with
  | nil => intro _; rfl
  | cons x xs ih =>
    intro h
    rw [List.map_cons, h x (List.mem_cons_self x xs),
      ih fun y hy => h y (List.mem_cons_of_mem _ hy)]

theorem length_filter_lt {α : Type} (p : α → Bool) :
    ∀ l : List α, (∃ x ∈ l, p x = false) → (l.filter p).length < l.length := by
  intro l
  induction l with
  | nil => rintro ⟨x, hx, _⟩; cases hx
  | cons y ys ih =>
    rintro ⟨x, hx, hpx⟩
    rcases List.mem_cons.mp hx with rfl | hx2
    · rw [List.filter_cons, if_neg (by simp [hpx])]
      exact Nat.lt_succ_of_le (List.length_filter_le p ys)
    · cases hpy : p y with
      | false =>
        rw [List.filter_cons, if_neg (by simp [hpy])]
        exact Nat.lt_succ_of_le (List.length_filter_le p ys)
      | true =>
        rw [List.filter_cons, if_pos (by simp [hpy]), List.length_cons, List.length_cons]
        exact Nat.succ_lt_succ (ih ⟨x, hx2, hpx⟩)

/-! ### Claim theorems and witnesses -/

/-- C4: `ack` (delete) and `changeLease` (changeTimeout) called with an id that
matches no record are no-ops: neither raises (both are total, their
DELETE/UPDATE simply matches zero rows) and the table is left unchanged. -/
theorem ackChangeLeaseMissingIdNoop (mq : MessageQueue) (s : QState) (i t : Nat)
    (h : ∀ r ∈ s.table, r.id ≠ i) :
    mq.delete s i = s ∧ mq.changeTimeout s i t = s := by
  constructor
  · show { s with table := s.table.filter fun r => !(r.id == i) } = s
    have h2 : (s.table.filter fun r => !(r.id == i)) = s.table :=
      List.filter_eq_self.mpr fun r hr => by simp [h r hr]
    rw [h2]
  · show { s with table :=
        s.table.map fun r => if r.id == i then { r with lockTime := s.now + t } else r } = s
    have h2 : (s.table.map fun r =>
        if r.id == i then { r with lockTime := s.now + t } else r) = s.table :=
      map_eq_self_of_forall _ _ fun r hr => by rw [if_neg (by simp [h r hr])]
    rw [h2]

/-- C4 witness: ack and changeLease of id 1 on a store with no such record
(as after a prior ack of that id) are no-ops. -/
theorem ackChangeLeaseMissingIdNoop_witness :
    qHandle.delete sEmpty 1 = sEmpty ∧ qHandle.changeTimeout sEmpty 1 0 = sEmpty :=
  ackChangeLeaseMissingIdNoop qHandle sEmpty 1 0 (by decide)

/-- C5: `lease` raises `EmptyQueue` exactly when no record of the handle's
queue is unlocked-or-stale, and in that case returns with the state unchanged. -/
theorem leaseEmptyIffNoEligible (mq : MessageQueue) (s : QState) :
    ((mq.readUnhandled s).fst = none ↔
      ∀ r ∈ s.table, r.queue = mq.queue → eligible s.now r = false) ∧
    ((mq.readUnhandled s).fst = none → mq.readUnhandled s = (none, s)) := by
  constructor
  · rw [readUnhandled_fst_none, selectNext_eq_none]
  · intro h
    exact readUnhandled_of_selectNone (readUnhandled_fst_none.mp h)

/-- C5 witness: on a store whose only record is freshly leased (locked, lease
not yet expired), lease raises EmptyQueue and leaves the state unchanged. -/
theorem leaseEmptyIffNoEligible_witness :
    qHandle.readUnhandled sOneLeased = (none, sOneLeased) :=
  (leaseEmptyIffNoEligible qHandle sOneLeased).2 (by decide)

/-- C2: for a leased message `(i, m)`, the scoped read deletes the record via
`ack i` exactly when the block exits normally; if the block raises `e`, it
instead applies `changeLease(i, 0)` and re-raises the same `e`. -/
theorem scopedReadAckOrNack (mq : MessageQueue) (s s1 : QState) (dflt : Option String)
    (block : String → Except String Unit) (i : Nat) (m : String)
    (h : mq.readUnhandled s = (some (i, m), s1)) :
    (block m = Except.ok () →
      mq.read s dflt block = (ReadOutcome.ok m, mq.delete s1 i)) ∧
    (∀ e, block m = Except.error e →
      mq.read s dflt block = (ReadOutcome.blockError e, mq.changeTimeout s1 i 0)) := by
  constructor
  · intro hb
    simp [MessageQueue.read, h, MessageQueue.handled, hb]
  · intro e hb
    simp [MessageQueue.read, h, MessageQueue.handled, hb]

/-- C2 witness: with one pending message and a normally-completing block, the
scoped read acks (deletes) the leased record. -/
theorem scopedReadAckOrNack_witness :
    qHandle.read sOne none okBlock = (ReadOutcome.ok "a", qHandle.delete sOneLeased 1) :=
  (scopedReadAckOrNack qHandle sOne sOneLeased none okBlock 1 "a" (by decide)).1 (by rfl)

/-- C8: on an empty queue, `withMessage` with a default yields the default and
performs no ack or nack afterwards (the state is unchanged, even when the block
errors, in which case the block's error propagates); with no default it
propagates `EmptyQueue`. -/
theorem scopedReadEmptyDefault (mq : MessageQueue) (s : QState) (d : String)
    (block : String → Except String Unit) (h : (mq.readUnhandled s).fst = none) :
    (block d = Except.ok () → mq.read s (some d) block = (ReadOutcome.ok d, s)) ∧
    (∀ e, block d = Except.error e →
      mq.read s (some d) block = (ReadOutcome.blockError e, s)) ∧
    mq.read s none block = (ReadOutcome.emptyQueue, s) := by
  have h2 := readUnhandled_of_selectNone (readUnhandled_fst_none.mp h)
  refine ⟨?_, ?_, ?_⟩
  · intro hb; simp [MessageQueue.read, h2, hb]
  · intro e hb; simp [MessageQueue.read, h2, hb]
  · simp [MessageQueue.read, h2]

/-- C8 witness: reading the empty store with a supplied default yields the
default and changes nothing. -/
theorem scopedReadEmptyDefault_witness :
    qHandle.read sEmpty (some "dflt") okBlock = (ReadOutcome.ok "dflt", sEmpty) :=
  (scopedReadEmptyDefault qHandle sEmpty "dflt" okBlock (by decide)).1 (by rfl)

/-- C10: `ack`/`changeLease` match by id alone, with no queue-name filter: any
handle performs the identical state change on any id, deleting or re-timing the
record of another queue exactly as that queue's own handle would, whereas
`lease` only ever returns a record of the handle's own queue. -/
theorem ackByIdIgnoresQueue (mqA mqB : MessageQueue) (s : QState) (i t : Nat) :
    mqA.delete s i = mqB.delete s i ∧
    mqA.changeTimeout s i t = mqB.changeTimeout s i t ∧
    (∀ r ∈ s.table, r.id = i → r ∉ (mqA.delete s i).table) ∧
    (∀ r ∈ s.table, r.id = i →
      { r with lockTime := s.now + t } ∈ (mqA.changeTimeout s i t).table) ∧
    (∀ j n s1, mqA.readUnhandled s = (some (j, n), s1) →
      ∃ r ∈ s.table, r.id = j ∧ r.queue = mqA.queue) := by
  refine ⟨rfl, rfl, ?_, ?_, ?_⟩
  · intro r hr hid hmem
    have hmem2 : r ∈ s.table.filter fun x => !(x.id == i) := hmem
    have h2 := (List.mem_filter.mp hmem2).2
    simp [hid] at h2
  · intro r hr hid
    have h2 := List.mem_map_of_mem
      (fun x => if x.id == i then { x with lockTime := s.now + t } else x) hr
    simp only [hid, beq_self_eq_true, if_true] at h2
    rw [show ({ r with lockTime := s.now + t } : Record)
        = { r with id := i, lockTime := s.now + t } from by rw [hid]]
    exact h2
  · intro j n s1 h
    obtain ⟨r, hsel, hj, hn, _⟩ := readUnhandled_some h
    obtain ⟨hmem, hq, _, _⟩ := selectNext_some hsel
    exact ⟨r, hmem, hj.symm, hq⟩

/-- C10 witness: a handle bound to queue `"other"` deletes the record of queue
`"q"` by its id, removing it from the table. -/
theorem ackByIdIgnoresQueue_witness :
    rA ∉ (({ queue := "other", timeout := 3 } : MessageQueue).delete sOne 1).table :=
  (ackByIdIgnoresQueue { queue := "other", timeout := 3 } qHandle sOne 1 0).2.2.1
    rA (by decide) (by decide)

/-- C3 (evaluation of the code at the failing input): a record leased with
`leaseSeconds = 0` (or re-timed by `changeLease(id, 0)`) gets
`lock_time = now`; the eligibility test `lock_time < CURRENT_TIMESTAMP` is
strict, so a lease issued at the same store clock time raises `EmptyQueue`
instead of returning the record; the record becomes eligible only once the
store clock strictly advances (last conjunct: at `now + 1`). -/
theorem leaseZeroNotImmediatelyEligible :
    ((qHandle.readUnhandled (qHandle.send sEmpty "a" (some 0)).2).1 = some (1, "a")) ∧
    ((qHandle.readUnhandled
        (qHandle.readUnhandled (qHandle.send sEmpty "a" (some 0)).2).2).1 = none) ∧
    ((qHandle.readUnhandled
        (qHandle.changeTimeout
          (qHandle.readUnhandled (qHandle.send sEmpty "a" none).2).2 1 0)).1 = none) ∧
    ((qHandle.readUnhandled
        { (qHandle.readUnhandled (qHandle.send sEmpty "a" (some 0)).2).2
            with now := 1001 }).1 = some (1, "a")) := by
  decide

/-- C1: a successful lease returns the id and payload of the lowest-id eligible
record of its queue, and within the same transaction marks that record locked
with lease expiry `now + timeout` (the record's stored lease seconds);
concretely: after `send "a"` and `send "b"`, the first lease returns
`(1, "a")`, after acking id 1 the next lease returns `(2, "b")`, and the lease
after that raises `EmptyQueue`. -/
theorem leaseReturnsOldestEligible (mq : MessageQueue) (s s1 : QState)
    (i : Nat) (m : String) (h : mq.readUnhandled s = (some (i, m), s1)) :
    (∃ r ∈ s.table, r.id = i ∧ r.message = m ∧ r.queue = mq.queue ∧
        eligible s.now r = true ∧
        (∀ x ∈ s.table, x.queue = mq.queue → eligible s.now x = true → i ≤ x.id) ∧
        s1 = { s with table := s.table.map (lockRecord s.now i) }) ∧
    ((qHandle.send sEmpty "a" none).1 = 1 ∧
     (qHandle.send (qHandle.send sEmpty "a" none).2 "b" none).1 = 2 ∧
     (qHandle.readUnhandled sAB).1 = some (1, "a") ∧
     (qHandle.readUnhandled sAB2).1 = some (2, "b") ∧
     (qHandle.readUnhandled sAB3).1 = none) := by
  obtain ⟨r, hsel, hi, hm, hs1⟩ := readUnhandled_some h
  obtain ⟨hmem, hq, he, hmin⟩ := selectNext_some hsel
  constructor
  · refine ⟨r, hmem, hi.symm, hm.symm, hq, he, ?_, ?_⟩
    · intro x hx h1 h2
      rw [hi]
      exact hmin x hx h1 h2
    · rw [hs1, hi]
  · decide

/-- C1 witness: leasing from the one-pending-record store returns that record
and locks it with expiry `now + timeout`. -/
theorem leaseReturnsOldestEligible_witness :
    (∃ r ∈ sOne.table, r.id = 1 ∧ r.message = "a" ∧ r.queue = qHandle.queue ∧
        eligible sOne.now r = true ∧
        (∀ x ∈ sOne.table, x.queue = qHandle.queue → eligible sOne.now x = true →
          1 ≤ x.id) ∧
        sOneLeased = { sOne with table := sOne.table.map (lockRecord sOne.now 1) }) ∧
    ((qHandle.send sEmpty "a" none).1 = 1 ∧
     (qHandle.send (qHandle.send sEmpty "a" none).2 "b" none).1 = 2 ∧
     (qHandle.readUnhandled sAB).1 = some (1, "a") ∧
     (qHandle.readUnhandled sAB2).1 = some (2, "b") ∧
     (qHandle.readUnhandled sAB3).1 = none) :=
  leaseReturnsOldestEligible qHandle sOne sOneLeased 1 "a" (by decide)

/-- C9: no double-claim under the serialization the store's transactions and
row locks enforce: after one lease wins a record, a second lease never returns
the same id; if the queue held exactly one eligible record, the second lease
raises `EmptyQueue`. -/
theorem noDoubleClaim (mq : MessageQueue) (s s1 : QState) (i : Nat) (m : String)
    (h : mq.readUnhandled s = (some (i, m), s1)) :
    (∀ j n s2, mq.readUnhandled s1 = (some (j, n), s2) → j ≠ i) ∧
    ((s.table.filter fun r => r.queue == mq.queue && eligible s.now r).length = 1 →
      (mq.readUnhandled s1).fst = none) := by
  obtain ⟨r, hsel, hi, hm, hs1⟩ := readUnhandled_some h
  obtain ⟨hmem, hq, he, hmin⟩ := selectNext_some hsel
  have hnow : s1.now = s.now := by rw [hs1]
  have htab : s1.table = s.table.map (lockRecord s.now r.id) := by rw [hs1]
  constructor
  · intro j n s2 h2
    obtain ⟨r2, hsel2, hj, hm2, _⟩ := readUnhandled_some h2
    obtain ⟨hmem2, hq2, he2, _⟩ := selectNext_some hsel2
    rw [htab] at hmem2
    obtain ⟨x, hx, hxr⟩ := List.mem_map.mp hmem2
    by_cases hxi : x.id = r.id
    · exfalso
      rw [← hxr, hnow, eligible_lockRecord_self s.now hxi] at he2
      exact Bool.false_ne_true he2
    · rw [lockRecord_of_ne _ hxi] at hxr
      subst hxr
      rw [hj, hi]
      exact hxi
  · intro hlen
    have hrf : r ∈ s.table.filter fun x => x.queue == mq.queue && eligible s.now x := by
      have h2 : minById (s.table.filter fun x => x.queue == mq.queue && eligible s.now x)
          = some r := hsel
      exact (minById_some h2).1
    obtain ⟨a, ha⟩ := List.length_eq_one.mp hlen
    rw [ha] at hrf
    have har : a = r := (List.mem_singleton.mp hrf).symm
    subst har
    rw [readUnhandled_fst_none, selectNext_eq_none]
    intro y hy hqy
    rw [htab] at hy
    obtain ⟨x, hx, hxy⟩ := List.mem_map.mp hy
    rw [hnow]
    by_cases hxi : x.id = a.id
    · rw [← hxy]
      exact eligible_lockRecord_self s.now hxi
    · rw [lockRecord_of_ne _ hxi] at hxy
      subst hxy
      cases hel : eligible s.now x with
      | false => rfl
      | true =>
        exfalso
        have h3 : x ∈ s.table.filter fun z => z.queue == mq.queue && eligible s.now z :=
          List.mem_filter.mpr ⟨hx, by rw [Bool.and_eq_true, beq_iff_eq]; exact ⟨hqy, hel⟩⟩
        rw [ha] at h3
        exact hxi (by rw [List.mem_singleton.mp h3])

/-- C9 witness: on a store with exactly one eligible record, after one lease
wins it, a second lease observes EmptyQueue. -/
theorem noDoubleClaim_witness : (qHandle.readUnhandled sOneLeased).fst = none :=
  (noDoubleClaim qHandle sOne sOneLeased 1 "a" (by decide)).2 (by decide)

/-! ### Lemmas for the draining loop (`readAll`) -/

theorem delete_table_length {mq : MessageQueue} {s s1 : QState} {i : Nat} {m : String}
    (h : mq.readUnhandled s = (some (i, m), s1)) :
    (mq.delete s1 i).table.length < s.table.length := by
  obtain ⟨r, hsel, hi, hm, hs1⟩ := readUnhandled_some h
  obtain ⟨hmem, _, _, _⟩ := selectNext_some hsel
  have htab : s1.table = s.table.map (lockRecord s.now r.id) := by rw [hs1]
  have hwit : ∃ x ∈ s1.table, (!(x.id == i)) = false := by
    refine ⟨lockRecord s.now r.id r, ?_, ?_⟩
    · rw [htab]
      exact List.mem_map_of_mem _ hmem
    · rw [hi]
      simp [lockRecord_id]
  have h2 := length_filter_lt _ s1.table hwit
  calc (mq.delete s1 i).table.length
      = (s1.table.filter fun x => !(x.id == i)).length := rfl
    _ < s1.table.length := h2
    _ = s.table.length := by rw [htab, List.length_map]

theorem readAllGo_empty (mq : MessageQueue) :
    ∀ fuel s, s.table.length ≤ fuel →
      (mq.readAllGo fuel s okBlock).2.1 = none ∧
      (mq.readUnhandled (mq.readAllGo fuel s okBlock).2.2).fst = none := by
  intro fuel
  induction fuel with
  | zero =>
    intro s hs
    have htab : s.table = [] := List.eq_nil_of_length_eq_zero (Nat.le_zero.mp hs)
    refine ⟨rfl, ?_⟩
    show (mq.readUnhandled s).fst = none
    rw [readUnhandled_fst_none, selectNext_eq_none]
    intro x hx
    rw [htab] at hx
    cases hx
  | succ f ih =>
    intro s hs
    rcases hr : mq.readUnhandled s with ⟨o, s1⟩
    cases o with
    | none =>
      obtain ⟨hss, hsel⟩ := readUnhandled_none_inv hr
      subst hss
      simp [MessageQueue.readAllGo, hr]
    | some im =>
      rcases im with ⟨i, m⟩
      have hb : okBlock m = Except.ok () := rfl
      simp only [MessageQueue.readAllGo, hr, hb]
      have hlen : (mq.delete s1 i).table.length ≤ f :=
        Nat.lt_succ_iff.mp (Nat.lt_of_lt_of_le (delete_table_length hr) hs)
      exact ih (mq.delete s1 i) hlen

theorem readAllGo_fuel_ample (mq : MessageQueue) (block : String → Except String Unit) :
    ∀ f1 f2 s, s.table.length ≤ f1 → f1 ≤ f2 →
      mq.readAllGo f1 s block = mq.readAllGo f2 s block := by
  intro f1
  induction f1 with
  | zero =>
    intro f2 s hs _
    have htab : s.table = [] := List.eq_nil_of_length_eq_zero (Nat.le_zero.mp hs)
    cases f2 with
    | zero => rfl
    | succ g =>
      have hsel : mq.selectNext s = none := by
        rw [selectNext_eq_none]
        intro x hx
        rw [htab] at hx
        cases hx
      simp [MessageQueue.readAllGo, readUnhandled_of_selectNone hsel]
  | succ f ih =>
    intro f2 s hs hle
    cases f2 with
    | zero => cases Nat.not_succ_le_zero f hle
    | succ g =>
      rcases hr : mq.readUnhandled s with ⟨o, s1⟩
      cases o with
      | none => simp only [MessageQueue.readAllGo, hr]
      | some im =>
        rcases im with ⟨i, m⟩
        cases hb : block m with
        | ok u =>
          have hlen : (mq.delete s1 i).table.length ≤ f :=
            Nat.lt_succ_iff.mp (Nat.lt_of_lt_of_le (delete_table_length hr) hs)
          have h2 := ih g (mq.delete s1 i) hlen (Nat.succ_le_succ_iff.mp hle)
          simp only [MessageQueue.readAllGo, hr, hb]
          rw [h2]
        | error e => simp only [MessageQueue.readAllGo, hr, hb]

/-- C7: the draining iterator with a normally-completing consumer block: no
error escapes (`EmptyQueue` ends the sequence instead of propagating), the
loop stops exactly when the queue is observed empty (a further receive would
raise `EmptyQueue`), and the loop's fuel bound is ample — any larger bound
yields the same finite run. -/
theorem drainTerminatesAtEmpty (mq : MessageQueue) (s : QState) :
    (mq.readAll s okBlock).2.1 = none ∧
    (mq.readUnhandled (mq.readAll s okBlock).2.2).fst = none ∧
    ∀ g, s.table.length ≤ g → mq.readAllGo g s okBlock = mq.readAll s okBlock := by
  obtain ⟨h1, h2⟩ := readAllGo_empty mq s.table.length s (Nat.le_refl _)
  refine ⟨h1, h2, ?_⟩
  intro g hg
  exact (readAllGo_fuel_ample mq okBlock s.table.length g s (Nat.le_refl _) hg).symm

/-- C7 witness: draining the two-message store with extra fuel gives the same
run as the canonical bound. -/
theorem drainTerminatesAtEmpty_witness :
    qHandle.readAllGo 5 sTwo okBlock = qHandle.readAll sTwo okBlock :=
  (drainTerminatesAtEmpty qHandle sTwo).2.2 5 (by decide)

/-! ### Lemmas for repeated leasing (`leaseAll`) and for `sendAll` -/

theorem leaseAllGo_inv (mq : MessageQueue) :
    ∀ (fuel : Nat) (todo done : List Record) (nid now : Nat),
      (∀ r ∈ done, (r.queue == mq.queue && eligible now r) = false) →
      (∀ r ∈ todo, r.queue = mq.queue ∧ r.locked = false) →
      ((done ++ todo).map Record.id).Pairwise (fun a b => a < b) →
      todo.length ≤ fuel →
      (mq.leaseAllGo fuel { table := done ++ todo, nextId := nid, now := now }).1
        = todo.map fun r => (r.id, r.message) := by
  intro fuel
  induction fuel with
  | zero =>
    intro todo done nid now hd ht hp hlen
    have h0 : todo = [] := List.eq_nil_of_length_eq_zero (Nat.le_zero.mp hlen)
    subst h0
    rfl
  | succ f ih =>
    intro todo done nid now hd ht hp hlen
    cases todo with
    | nil =>
      rw [List.append_nil]
      have hsel : mq.selectNext { table := done, nextId := nid, now := now }
          = none := by
        rw [selectNext_eq_none]
        intro x hx hq
        have h2 := hd x hx
        simp [hq] at h2
        exact h2
      simp [MessageQueue.leaseAllGo, readUnhandled_of_selectNone hsel]
    | cons h0 tl =>
      have hq0 := (ht h0 (List.mem_cons_self _ _)).1
      have hl0 := (ht h0 (List.mem_cons_self _ _)).2
      -- decompose the pairwise hypothesis on ids
      have hp2 : (done ++ h0 :: tl).Pairwise (fun a b => a.id < b.id) :=
        List.pairwise_map.mp hp
      obtain ⟨hpd, hpc, hcross⟩ := List.pairwise_append.mp hp2
      obtain ⟨hhead, hptl⟩ := List.pairwise_cons.mp hpc
      -- the candidate set is exactly h0 :: (eligible part of tl)
      have hfd : (done.filter fun r => r.queue == mq.queue && eligible now r) = [] :=
        List.filter_eq_nil_iff.mpr fun x hx => by simp [hd x hx]
      have hp0 : (h0.queue == mq.queue && eligible now h0) = true := by
        rw [Bool.and_eq_true, beq_iff_eq]
        exact ⟨hq0, by simp [eligible, hl0]⟩
      have hfilter : ((done ++ h0 :: tl).filter fun r => r.queue == mq.queue && eligible now r)
          = h0 :: (tl.filter fun r => r.queue == mq.queue && eligible now r) := by
        rw [List.filter_append, hfd, List.nil_append]
        simp [List.filter_cons, hp0]
      have hsel : mq.selectNext { table := done ++ h0 :: tl, nextId := nid, now := now }
          = some h0 := by
        show minById ((done ++ h0 :: tl).filter fun r => r.queue == mq.queue && eligible now r)
          = some h0
        rw [hfilter]
        apply minById_head
        intro x hx
        exact Nat.lt_asymm (hhead x (List.mem_of_mem_filter hx))
      have hupd : (done ++ h0 :: tl).map (lockRecord now h0.id)
          = done ++ lockRecord now h0.id h0 :: tl := by
        rw [List.map_append, List.map_cons]
        rw [map_eq_self_of_forall _ done
          fun x hx => lockRecord_of_ne _ (Nat.ne_of_lt (hcross x hx h0 (List.mem_cons_self _ _)))]
        rw [map_eq_self_of_forall _ tl
          fun x hx => lockRecord_of_ne _ (Nat.ne_of_gt (hhead x hx))]
      have hread : mq.readUnhandled { table := done ++ h0 :: tl, nextId := nid, now := now }
          = (some (h0.id, h0.message),
             { table := done ++ lockRecord now h0.id h0 :: tl, nextId := nid, now := now }) := by
        simp only [MessageQueue.readUnhandled, hsel]
        rw [hupd]
      simp only [MessageQueue.leaseAllGo, hread, List.map_cons]
      -- reduce to the induction hypothesis on the remaining todo list
      have hassoc : done ++ lockRecord now h0.id h0 :: tl
          = (done ++ [lockRecord now h0.id h0]) ++ tl := by
        rw [List.append_assoc, List.singleton_append]
      have hd2 : ∀ r ∈ done ++ [lockRecord now h0.id h0],
          (r.queue == mq.queue && eligible now r) = false := by
        intro r hr
        rcases List.mem_append.mp hr with h1 | h1
        · exact hd r h1
        · rw [List.mem_singleton.mp h1, eligible_lockRecord_self now rfl, Bool.and_false]
      have hp3 : (((done ++ [lockRecord now h0.id h0]) ++ tl).map Record.id).Pairwise
          (fun a b => a < b) := by
        rw [← hassoc]
        rw [show (done ++ lockRecord now h0.id h0 :: tl).map Record.id
            = (done ++ h0 :: tl).map Record.id from by
          simp [lockRecord_id]]
        exact hp
      have hrec := ih tl (done ++ [lockRecord now h0.id h0]) nid now hd2
        (fun r hr => ht r (List.mem_cons_of_mem _ hr)) hp3
        (Nat.succ_le_succ_iff.mp hlen)
      rw [hassoc, hrec]

theorem sendAll_eq (mq : MessageQueue) (t : Option Nat) :
    ∀ (msgs : List String) (s : QState),
      mq.sendAll s msgs t
        = { table := s.table ++ mq.sentRecords t s.now s.nextId msgs,
            nextId := s.nextId + msgs.length, now := s.now } := by
  intro msgs
  induction msgs with
  | nil =>
    intro s
    show s = _
    cases s
    simp [MessageQueue.sentRecords]
  | cons m ms ih =>
    intro s
    show mq.sendAll (mq.send s m t).2 ms t = _
    rw [ih]
    simp only [MessageQueue.send, MessageQueue.newRecord, MessageQueue.sentRecords,
      QState.mk.injEq, List.append_assoc, List.singleton_append, List.length_cons]
    refine ⟨trivial, by omega, trivial⟩

theorem sentRecords_forall (mq : MessageQueue) (t : Option Nat) (now : Nat) :
    ∀ (msgs : List String) (nid : Nat),
      ∀ r ∈ mq.sentRecords t now nid msgs,
        r.queue = mq.queue ∧ r.locked = false ∧ nid ≤ r.id := by
  intro msgs
  induction msgs with
  | nil =>
    intro nid r hr
    cases hr
  | cons m ms ih =>
    intro nid r hr
    rcases List.mem_cons.mp hr with h1 | h1
    · subst h1
      exact ⟨rfl, rfl, Nat.le_refl _⟩
    · obtain ⟨hq, hl, hle⟩ := ih (nid + 1) r h1
      exact ⟨hq, hl, Nat.le_trans (Nat.le_succ _) hle⟩

theorem sentRecords_pairwise (mq : MessageQueue) (t : Option Nat) (now : Nat) :
    ∀ (msgs : List String) (nid : Nat),
      ((mq.sentRecords t now nid msgs).map Record.id).Pairwise (fun a b => a < b) := by
  intro msgs
  induction msgs with
  | nil =>
    intro nid
    simp [MessageQueue.sentRecords]
  | cons m ms ih =>
    intro nid
    simp only [MessageQueue.sentRecords, List.map_cons, List.pairwise_cons]
    constructor
    · intro b hb
      obtain ⟨x, hx, hxb⟩ := List.mem_map.mp hb
      obtain ⟨_, _, hle⟩ := sentRecords_forall mq t now ms (nid + 1) x hx
      rw [← hxb]
      exact Nat.lt_of_lt_of_le (Nat.lt_succ_self nid) hle
    · exact ih (nid + 1)

theorem sentRecords_messages (mq : MessageQueue) (t : Option Nat) (now : Nat) :
    ∀ (msgs : List String) (nid : Nat),
      (mq.sentRecords t now nid msgs).map (fun r => r.message) = msgs := by
  intro msgs
  induction msgs with
  | nil => intro nid; rfl
  | cons m ms ih =>
    intro nid
    simp only [MessageQueue.sentRecords, List.map_cons]
    rw [ih (nid + 1)]

/-- C6: at-least-once delivery with no concurrent producers: after any finite
sequence of sends on an initially empty store, repeatedly leasing until
`EmptyQueue` returns every sent payload in some lease call — no payload is
silently lost. -/
theorem sendThenLeaseAtLeastOnce (mq : MessageQueue) (nid now : Nat)
    (t : Option Nat) (msgs : List String) (m : String) (hm : m ∈ msgs) :
    m ∈ ((mq.leaseAll
          (mq.sendAll { table := [], nextId := nid, now := now } msgs t)).1.map
          Prod.snd) := by
  rw [sendAll_eq]
  show m ∈ ((mq.leaseAllGo (mq.sentRecords t now nid msgs).length
      { table := [] ++ mq.sentRecords t now nid msgs,
        nextId := nid + msgs.length, now := now }).1.map Prod.snd)
  rw [leaseAllGo_inv mq (mq.sentRecords t now nid msgs).length
      (mq.sentRecords t now nid msgs) [] (nid + msgs.length) now
      (fun r hr => absurd hr (List.not_mem_nil r))
      (fun r hr => ⟨(sentRecords_forall mq t now msgs nid r hr).1,
        (sentRecords_forall mq t now msgs nid r hr).2.1⟩)
      (by simpa using sentRecords_pairwise mq t now msgs nid)
      (Nat.le_refl _)]
  rw [List.map_map]
  show m ∈ (mq.sentRecords t now nid msgs).map fun r => r.message
  rw [sentRecords_messages]
  exact hm

/-- C6 witness: both payloads of a two-message send sequence are among the
payloads returned by leasing until EmptyQueue. -/
theorem sendThenLeaseAtLeastOnce_witness :
    "b" ∈ ((qHandle.leaseAll
        (qHandle.sendAll { table := [], nextId := 1, now := 1000 } ["a", "b"] none)).1.map
        Prod.snd) :=
  sendThenLeaseAtLeastOnce qHandle 1 1000 none ["a", "b"] "b" (by decide)

example : qHandle.readUnhandled sOne = (some (1, "a"), sOneLeased) := by decide

example : (qHandle.readUnhandled sOneLeased).fst = none := by decide

example : (qHandle.readAll sTwo okBlock).1 = ["a", "b"] := by decide

example : (qHandle.leaseAll sTwo).1 = [(1, "a"), (2, "b")] := by decide
